import Mathlib

/-!
# Verification of the script timing engine

Shallow embedding of the pure text-transformation routines of the
repository's `OutputDisplay` component: `generateSRT` and
`recalculateTimestamps`, together with the regex helpers they rely on
(`/\(?(\d{2}):(\d{2})\)?/`, `/\*\*/g`, `/#{1,6}\s/g`, `/\[.*?\]/g`).

Modelling conventions:
* a JavaScript string is a `List Char` (the scripts under consideration
  are BMP text, where UTF-16 code units and code points coincide);
* JavaScript `number` values produced by the engine are modelled by exact
  rationals `ℚ` (the engine only divides lengths by `4.5` and `10`, and
  all statements proved about fractional values are at points where IEEE
  double arithmetic is exact);
* the regular expressions are implemented directly as leftmost-match
  scanners with the backtracking semantics of the JavaScript engine;
* `\s` is modelled by the whitespace characters that occur in script
  text (space, tab, CR, LF).
-/

/-- Whitespace test used for `trim` and for `\s` in `/#{1,6}\s/g`. -/
def isWS (c : Char) : Bool := c = ' ' || c = '\t' || c = '\n' || c = '\r'

/-- JavaScript `String.prototype.trim`. -/
def trim (cs : List Char) : List Char :=
  ((cs.dropWhile isWS).reverse.dropWhile isWS).reverse

/-- Numeric value of a decimal digit character. -/
def digitVal (c : Char) : Nat := c.toNat - 48

/-- Decimal digit character for a value below 10. -/
def decChar (d : Nat) : Char := Char.ofNat (48 + d)

/-- Fuel-driven decimal rendering (JavaScript `Number.prototype.toString`
for nonnegative integers).  The fuel is always chosen large enough. -/
def natToDecCore : Nat → Nat → List Char
  | 0, _ => []
  | fuel + 1, n =>
    if n < 10 then [decChar n] else natToDecCore fuel (n / 10) ++ [decChar (n % 10)]

/-- Decimal rendering of a natural number. -/
def natToDec (n : Nat) : List Char := natToDecCore (n + 1) n

/-- JavaScript `String.prototype.padStart(w, '0')`. -/
def padLeft (w : Nat) (s : List Char) : List Char :=
  List.replicate (w - s.length) '0' ++ s

/-- Attempt to match `\d{2}:\d{2}\)?` at the head of the list.  Returns the
matched substring, the two decoded two-digit numbers, and the remainder.
The trailing `)` is consumed greedily when present, exactly as the
JavaScript engine does for `\)?`. -/
def matchDigits (cs : List Char) : Option (List Char × Nat × Nat × List Char) :=
  match cs with
  | d1 :: d2 :: c3 :: d4 :: d5 :: rest =>
    if d1.isDigit ∧ d2.isDigit ∧ c3 = ':' ∧ d4.isDigit ∧ d5.isDigit then
      if rest.head? = some ')' then
        some ([d1, d2, c3, d4, d5, ')'],
          10 * digitVal d1 + digitVal d2, 10 * digitVal d4 + digitVal d5, rest.tail)
      else
        some ([d1, d2, c3, d4, d5],
          10 * digitVal d1 + digitVal d2, 10 * digitVal d4 + digitVal d5, rest)
    else none
  | _ => none

/-- Attempt to match `\(?(\d{2}):(\d{2})\)?` at the head of the list.  The
leading `(` is consumed when present; if the digit part then fails there is
no viable backtrack because `(` is not a digit. -/
def matchMarkerAt (cs : List Char) : Option (List Char × Nat × Nat × List Char) :=
  match cs with
  | [] => none
  | c :: rest =>
    if c = '(' then
      (matchDigits rest).map (fun p => ('(' :: p.1, p.2.1, p.2.2.1, p.2.2.2))
    else matchDigits (c :: rest)

/-- Leftmost match of the time-marker regex: returns the text before the
match, the matched substring, the decoded minutes and seconds, and the text
after the match.  `none` when the line contains no marker.  This is the
shared scan/replace path of both `timeRegex` constants in the source. -/
def findMarker : List Char → Option (List Char × List Char × Nat × Nat × List Char)
  | [] => none
  | c :: cs =>
    match matchMarkerAt (c :: cs) with
    | some (m, mi, se, rest) => some ([], m, mi, se, rest)
    | none =>
      (findMarker cs).map (fun r => (c :: r.1, r.2.1, r.2.2.1, r.2.2.2.1, r.2.2.2.2))

/-- JavaScript `replace(/\*\*/g, '')`: drop every non-overlapping `**`. -/
def starClean : List Char → List Char
  | '*' :: '*' :: rest => starClean rest
  | c :: rest => c :: starClean rest
  | [] => []

/-- State machine for `replace(/#{1,6}\s/g, '')`: `p` counts the pending run
of `#` characters.  A whitespace char closes a run, deleting the last
`min(p,6)` hashes together with the whitespace (the leftmost viable match of
the backtracking engine); any other char flushes the run verbatim. -/
def hashCleanAux : Nat → List Char → List Char
  | p, [] => List.replicate p '#'
  | p, c :: rest =>
    if c = '#' then hashCleanAux (p + 1) rest
    else if isWS c then
      if p = 0 then c :: hashCleanAux 0 rest
      else List.replicate (p - 6) '#' ++ hashCleanAux 0 rest
    else List.replicate p '#' ++ c :: hashCleanAux 0 rest

/-- JavaScript `replace(/#{1,6}\s/g, '')`. -/
def hashClean (cs : List Char) : List Char := hashCleanAux 0 cs

/-- Line terminators, which `.` in a JavaScript regex never matches. -/
def isLineTerm (c : Char) : Bool :=
  c = '\n' || c = '\r' || c.toNat == 8232 || c.toNat == 8233

/-- State machine for `replace(/\[.*?\]/g, '')`: while inside a candidate
bracket (`some buf`), the lazy `.*?` extends to the first `]`; a line
terminator aborts the candidate (and every later `[` inside `buf` fails for
the same reason, since `buf` contains neither `]` nor terminators). -/
def bracketAux : Option (List Char) → List Char → List Char
  | none, [] => []
  | some buf, [] => '[' :: buf
  | none, c :: rest =>
    if c = '[' then bracketAux (some []) rest
    else c :: bracketAux none rest
  | some buf, c :: rest =>
    if c = ']' then bracketAux none rest
    else if isLineTerm c then '[' :: buf ++ c :: bracketAux none rest
    else bracketAux (some (buf ++ [c])) rest

/-- JavaScript `replace(/\[.*?\]/g, '')`. -/
def bracketClean (cs : List Char) : List Char := bracketAux none cs

/-- JavaScript `script.split('\n')`. -/
def splitLines : List Char → List (List Char)
  | [] => [[]]
  | c :: rest =>
    if c = '\n' then [] :: splitLines rest
    else
      match splitLines rest with
      | l :: ls => (c :: l) :: ls
      | [] => [[c]]

/-- JavaScript `lines.join('\n')`. -/
def joinLines : List (List Char) → List Char
  | [] => []
  | [l] => l
  | l :: ls => l ++ '\n' :: joinLines ls

/-- The caption text taken from a marker line in `generateSRT`:
`line.replace(timeRegex, '').trim().replace(/\*\*/g, '').replace(/\[.*?\]/g, '').trim()`
where the line is `pre ++ marker ++ suf`. -/
def cleanMarkerText (pre suf : List Char) : List Char :=
  trim (bracketClean (starClean (trim (pre ++ suf))))

/-- The caption text taken from a continuation line in `generateSRT`:
`line.replace(/#{1,6}\s/g, '').replace(/\*\*/g, '').trim()`. -/
def cleanContentLine (l : List Char) : List Char :=
  trim (starClean (hashClean l))

/-- The `lines.forEach` loop of `generateSRT`, accumulating `srtEntries`.
`cur` is `currentEntry`: its start time and the list of text pieces. -/
def srtLoop : List (List Char) → Option (Nat × List (List Char)) → List (Nat × List Char)
  | [], none => []
  | [], some (st, ts) => [(st, trim (joinLines ts))]
  | l :: ls, cur =>
    match findMarker l with
    | some (pre, _m, mi, se, suf) =>
      let closed : List (Nat × List Char) :=
        match cur with
        | some (st, ts) => [(st, trim (joinLines ts))]
        | none => []
      let ct := cleanMarkerText pre suf
      closed ++ srtLoop ls (some (mi * 60 + se, if ct ≠ [] then [ct] else []))
    | none =>
      match cur with
      | some (st, ts) =>
        let cl := cleanContentLine l
        srtLoop ls (some (st, if cl ≠ [] then ts ++ [cl] else ts))
      | none => srtLoop ls none

/-- The `srtEntries` array computed by `generateSRT` for a script. -/
def srtEntries (cs : List Char) : List (Nat × List Char) :=
  srtLoop (splitLines cs) none

/-- Rounding to a whole number of seconds: `Math.floor` on the nonnegative
values the engine produces. -/
def jsFloor (q : ℚ) : Nat := (Int.floor q).toNat

/-- JavaScript `%` (fmod) for the nonnegative operands the engine uses. -/
def jsMod (a b : ℚ) : ℚ := a - b * ((Int.floor (a / b) : ℤ) : ℚ)

/-- The `formatSRTTime` helper of `generateSRT`. -/
def formatSRTTime (s : ℚ) : List Char :=
  padLeft 2 (natToDec (jsFloor (s / 3600))) ++
  ':' :: padLeft 2 (natToDec (jsFloor (jsMod s 3600 / 60))) ++
  ':' :: padLeft 2 (natToDec (jsFloor (jsMod s 60))) ++
  ',' :: padLeft 3 (natToDec (jsFloor (jsMod s 1 * 1000)))

/-- The end time chosen for an entry given the start of the next entry, if
any: `nextEntry ? nextEntry.start : entry.start + Math.max(3, entry.text.length / 10)`. -/
def endOf (e : Nat × List Char) (next : Option Nat) : ℚ :=
  match next with
  | some n => (n : ℚ)
  | none => (e.1 : ℚ) + max 3 ((e.2.length : ℚ) / 10)

/-- One rendered cue block:
`` `${index+1}\n${fmt(start)} --> ${fmt(end)}\n${entry.text}\n` ``. -/
def renderBlock (idx : Nat) (e : Nat × List Char) (next : Option Nat) : List Char :=
  natToDec idx ++ '\n' :: formatSRTTime ((e.1 : ℚ)) ++
  ' ' :: '-' :: '-' :: '>' :: ' ' :: formatSRTTime (endOf e next) ++
  '\n' :: e.2 ++ ['\n']

/-- The `srtEntries.map((entry, index) => ...)` pass of `generateSRT`. -/
def renderAll (idx : Nat) : List (Nat × List Char) → List (List Char)
  | [] => []
  | e :: rest => renderBlock idx e (rest.head?.map Prod.fst) :: renderAll (idx + 1) rest

/-- The SRT generator: `generateSRT` from the source, on character lists. -/
def generateSRT (cs : List Char) : List Char :=
  joinLines (renderAll 1 (srtEntries cs))

/-- The replacement timestamp written by `recalculateTimestamps`:
`` `(${mins}:${secs})` `` with both fields `padStart(2, '0')`.  The source
computes `Math.floor(t / 60)` and `Math.floor(t % 60)`; the clock `t` is
a nonnegative sum, for which these equal `⌊t⌋ / 60` and `⌊t⌋ % 60`, so the
whole-second clock `n = jsFloor t` is taken as the argument. -/
def fmtTS (n : Nat) : List Char :=
  '(' :: (padLeft 2 (natToDec (n / 60)) ++ ':' :: padLeft 2 (natToDec (n % 60)) ++ [')'])

/-- The `lines.map` loop of `recalculateTimestamps` with its running clock
`t` (`currentTime`, in seconds): a marker line has its first match replaced
and leaves the clock alone; any other line is kept and advances the clock by
`line.length / 4.5` when it is not blank and does not start with `#`. -/
def recalcGo (t : ℚ) : List (List Char) → List (List Char)
  | [] => []
  | l :: ls =>
    match findMarker l with
    | some (pre, _m, _mi, _se, suf) =>
      (pre ++ fmtTS (jsFloor t) ++ suf) :: recalcGo t ls
    | none =>
      l :: recalcGo
        (if l.head? ≠ some '#' ∧ 0 < (trim l).length then t + (l.length : ℚ) / 4.5 else t) ls

/-- `recalculateTimestamps` from the source, on character lists. -/
def recalculateTimestamps (cs : List Char) : List Char :=
  joinLines (recalcGo 0 (splitLines cs))

/-! ## Specification-side definitions (stated from the claims' wording) -/

/-- Clock contribution of one line as the claims describe it: a marker line
contributes nothing; a heading line (leading `#`) or blank line contributes
nothing; every other line contributes `length / 4.5` seconds. -/
def clockStep (l : List Char) : ℚ :=
  if (findMarker l).isSome then 0
  else if l.head? = some '#' ∨ trim l = [] then 0
  else (l.length : ℚ) / 4.5

/-- The running clock before line `i`: the sum of the contributions of the
earlier lines. -/
def clockAt (lines : List (List Char)) (i : Nat) : ℚ :=
  (((lines.take i).map clockStep)).sum

/-- Rewriting of line `i` as the claims describe it: only the first matched
marker substring is replaced by the freshly formatted `(MM:SS)` value of the
floored running clock. -/
def rewriteLine (lines : List (List Char)) (i : Nat) : List Char :=
  let l := lines.getD i []
  match findMarker l with
  | some (pre, _m, _mi, _se, suf) => pre ++ fmtTS (jsFloor (clockAt lines i)) ++ suf
  | none => l

/-- Line rewriting with the clock offset by `t`: used to relate the
stateful pass `recalcGo` to the indexed description. -/
def rewriteLineAt (t : ℚ) (ls : List (List Char)) (i : Nat) : List Char :=
  match findMarker (ls.getD i []) with
  | some (pre, _m, _mi, _se, suf) => pre ++ fmtTS (jsFloor (t + clockAt ls i)) ++ suf
  | none => ls.getD i []

/-- The timestamp recalculation as described by the specification: an
indexed pass over the lines using the running clock `clockAt`. -/
def recalcSpec (cs : List Char) : List Char :=
  joinLines ((List.range (splitLines cs).length).map (rewriteLine (splitLines cs)))

/-- The decoded start values of the marker lines, in textual order. -/
def markerStarts (lines : List (List Char)) : List Nat :=
  lines.filterMap (fun l => (findMarker l).map (fun r => r.2.2.1 * 60 + r.2.2.2.1))

/-- The end times of the synthesized entries, in order (each non-final entry
ends where the next begins; the final entry uses the length heuristic). -/
def endTimes : List (Nat × List Char) → List ℚ
  | [] => []
  | e :: rest => endOf e (rest.head?.map Prod.fst) :: endTimes rest

/-- The milliseconds field rendered by `formatSRTTime`. -/
def msOf (q : ℚ) : Nat := jsFloor (jsMod q 1 * 1000)

/-- Whether a `[` is followed somewhere later by a `]`. -/
def hasBracketPair (cs : List Char) : Bool :=
  ((cs.dropWhile (fun c => !(c == '['))).drop 1).contains ']'

/-! ## Sanity checks on concrete inputs -/

example : "ab".data = ['a', 'b'] := by decide

example : findMarker "00:00".data = some ([], "00:00".data, 0, 0, []) := by decide

example :
    findMarker "(00:30) Hi".data = some ([], "(00:30)".data, 0, 30, " Hi".data) := by
  decide

example : findMarker "(100:00)".data = some ("(1".data, "00:00)".data, 0, 0, []) := by
  decide

example : hashClean "## Section".data = "Section".data := by decide

example : hashClean "####### x".data = "#x".data := by decide

example : starClean "**[Intro]**".data = "[Intro]".data := by decide

example : bracketClean "[Intro] Hi".data = " Hi".data := by decide

example : cleanContentLine "[Visual] Bye".data = "[Visual] Bye".data := by decide

example :
    srtEntries "(00:00) Hello\n(00:30) World".data =
      [(0, "Hello".data), (30, "World".data)] := by decide

example :
    srtEntries "(00:00) **[Intro]** Hi there".data = [(0, "Hi there".data)] := by
  decide

/-! ## Elementary facts about the rational helpers -/

/-- Computing `jsFloor` from bounds, since rational arithmetic is settled by
`norm_num` rather than kernel reduction. -/
theorem jsFloor_eq_of {q : ℚ} {n : Nat} (h1 : (n : ℚ) ≤ q) (h2 : q < n + 1) :
    jsFloor q = n := by
  have : Int.floor q = (n : ℤ) := by
    rw [Int.floor_eq_iff]
    constructor
    · exact_mod_cast h1
    · exact_mod_cast h2
  simp [jsFloor, this]

theorem jsFloor_natCast (n : Nat) : jsFloor (n : ℚ) = n := by
  apply jsFloor_eq_of (le_refl _)
  exact_mod_cast lt_add_one (n : ℚ)

theorem jsMod_natCast_one (n : Nat) : jsMod (n : ℚ) 1 = 0 := by
  simp [jsMod]

example : jsFloor ((2 : ℚ) / 4.5) = 0 := by
  apply jsFloor_eq_of <;> norm_num

example : jsFloor ((7 : ℚ) / 2) = 3 := by
  apply jsFloor_eq_of <;> norm_num

/-! ## Structure of `splitLines` and `joinLines` -/

theorem splitLines_ne_nil (cs : List Char) : splitLines cs ≠ [] := by
  induction cs with
  | nil => simp [splitLines]
  | cons c rest ih =>
    simp only [splitLines]
    split
    · simp
    · split
      · simp
      · simp

theorem joinLines_cons_cons (l l' : List Char) (ls : List (List Char)) :
    joinLines (l :: l' :: ls) = l ++ '\n' :: joinLines (l' :: ls) := by
  rfl

theorem joinLines_splitLines (cs : List Char) : joinLines (splitLines cs) = cs := by
  induction cs with
  | nil => rfl
  | cons c rest ih =>
    obtain ⟨l, ls, hls⟩ : ∃ l ls, splitLines rest = l :: ls := by
      cases h' : splitLines rest with
      | nil => exact absurd h' (splitLines_ne_nil rest)
      | cons l ls => exact ⟨l, ls, rfl⟩
    rw [hls] at ih
    by_cases h : c = '\n'
    · subst h
      simp only [splitLines, hls, if_true]
      rw [joinLines_cons_cons]
      simp [ih]
    · simp only [splitLines, if_neg h, hls]
      cases ls with
      | nil => simpa [joinLines] using ih
      | cons l2 ls2 =>
        rw [joinLines_cons_cons] at ih ⊢
        simpa using ih

theorem splitLines_no_nl (cs : List Char) : ∀ l ∈ splitLines cs, '\n' ∉ l := by
  induction cs with
  | nil => simp [splitLines]
  | cons c rest ih =>
    obtain ⟨l0, ls0, hls⟩ : ∃ l0 ls0, splitLines rest = l0 :: ls0 := by
      cases h' : splitLines rest with
      | nil => exact absurd h' (splitLines_ne_nil rest)
      | cons l0 ls0 => exact ⟨l0, ls0, rfl⟩
    intro l hl
    by_cases h : c = '\n'
    · subst h
      simp only [splitLines, if_pos rfl] at hl
      rcases List.mem_cons.mp hl with h1 | h1
      · simp [h1]
      · exact ih l h1
    · simp only [splitLines, if_neg h, hls] at hl
      rcases List.mem_cons.mp hl with h1 | h1
      · subst h1
        intro hmem
        rcases List.mem_cons.mp hmem with h2 | h2
        · exact h h2.symm
        · exact ih l0 (by simp [hls]) h2
      · exact ih l (by simp [hls, h1])

theorem splitLines_append_no_nl (xs l : List Char) (hx : '\n' ∉ xs) :
    splitLines (xs ++ l) = (xs ++ (splitLines l).headD []) :: (splitLines l).tail := by
  induction xs with
  | nil =>
    obtain ⟨l0, ls0, hls⟩ : ∃ l0 ls0, splitLines l = l0 :: ls0 := by
      cases h' : splitLines l with
      | nil => exact absurd h' (splitLines_ne_nil l)
      | cons l0 ls0 => exact ⟨l0, ls0, rfl⟩
    simp [hls]
  | cons x xs ih =>
    have hx' : '\n' ∉ xs := fun hm => hx (List.mem_cons_of_mem _ hm)
    have hxne : x ≠ '\n' := fun he => hx (by simp [he])
    have ih' := ih hx'
    simp only [List.cons_append, splitLines, if_neg hxne, List.append_eq, ih']

theorem splitLines_mid_nl (xs ys : List Char) (hx : '\n' ∉ xs) :
    splitLines (xs ++ '\n' :: ys) = xs :: splitLines ys := by
  have h := splitLines_append_no_nl xs ('\n' :: ys) hx
  have h2 : splitLines ('\n' :: ys) = [] :: splitLines ys := by simp [splitLines]
  rw [h2] at h
  simpa using h

theorem splitLines_joinLines (ls : List (List Char)) (hne : ls ≠ [])
    (h : ∀ l ∈ ls, '\n' ∉ l) : splitLines (joinLines ls) = ls := by
  induction ls with
  | nil => exact absurd rfl hne
  | cons l ls ih =>
    cases ls with
    | nil =>
      have hl : '\n' ∉ l := h l (by simp)
      have := splitLines_append_no_nl l [] hl
      simpa [joinLines, splitLines] using this
    | cons l2 ls2 =>
      rw [joinLines_cons_cons]
      have hl : '\n' ∉ l := h l (by simp)
      rw [splitLines_mid_nl l (joinLines (l2 :: ls2)) hl]
      rw [ih (by simp) (fun x hx => h x (List.mem_cons_of_mem _ hx))]

/-! ## Structure of the marker matcher -/

theorem matchDigits_five (x1 x2 x3 x4 x5 : Char) (rest : List Char) :
    matchDigits (x1 :: x2 :: x3 :: x4 :: x5 :: rest) = none ↔
      ¬(x1.isDigit ∧ x2.isDigit ∧ x3 = ':' ∧ x4.isDigit ∧ x5.isDigit) := by
  simp only [matchDigits]
  split_ifs with h h2 <;> simp [h]

theorem matchDigits_lp1 (t : List Char) : matchDigits ('(' :: t) = none := by
  rcases t with _ | ⟨a, _ | ⟨b, _ | ⟨c, _ | ⟨d, r⟩⟩⟩⟩ <;>
    simp [matchDigits, Char.isDigit]

theorem matchDigits_lp2 (x : Char) (t : List Char) :
    matchDigits (x :: '(' :: t) = none := by
  rcases t with _ | ⟨a, _ | ⟨b, _ | ⟨c, r⟩⟩⟩ <;> simp [matchDigits, Char.isDigit]

theorem matchDigits_lp3 (x y : Char) (t : List Char) :
    matchDigits (x :: y :: '(' :: t) = none := by
  rcases t with _ | ⟨a, _ | ⟨b, r⟩⟩ <;> simp [matchDigits]

theorem matchDigits_lp4 (x y z : Char) (t : List Char) :
    matchDigits (x :: y :: z :: '(' :: t) = none := by
  rcases t with _ | ⟨a, r⟩ <;> simp [matchDigits, Char.isDigit]

theorem matchDigits_lp5 (x y z u : Char) (t : List Char) :
    matchDigits (x :: y :: z :: u :: '(' :: t) = none := by
  simp [matchDigits, Char.isDigit]

theorem matchDigits_eq_append {cs m : List Char} {a b : Nat} {rest : List Char}
    (h : matchDigits cs = some (m, a, b, rest)) : cs = m ++ rest := by
  rcases cs with _ | ⟨d1, _ | ⟨d2, _ | ⟨c3, _ | ⟨d4, _ | ⟨d5, r⟩⟩⟩⟩⟩
  · simp [matchDigits] at h
  · simp [matchDigits] at h
  · simp [matchDigits] at h
  · simp [matchDigits] at h
  · simp [matchDigits] at h
  · simp only [matchDigits] at h
    split_ifs at h with hcond hh
    · simp only [Option.some.injEq, Prod.mk.injEq] at h
      obtain ⟨h1, -, -, h4⟩ := h
      rcases r with _ | ⟨c0, rt⟩
      · simp at hh
      · simp only [List.head?, Option.some.injEq] at hh
        subst hh
        simp only [List.tail_cons] at h4
        simp [← h1, ← h4]
    · simp only [Option.some.injEq, Prod.mk.injEq] at h
      obtain ⟨h1, -, -, h4⟩ := h
      simp [← h1, ← h4]

theorem matchMarkerAt_eq_append {cs m : List Char} {a b : Nat} {rest : List Char}
    (h : matchMarkerAt cs = some (m, a, b, rest)) : cs = m ++ rest := by
  rcases cs with _ | ⟨c, t⟩
  · simp [matchMarkerAt] at h
  · simp only [matchMarkerAt] at h
    split_ifs at h with hc
    · cases hd : matchDigits t with
      | none => rw [hd] at h; simp at h
      | some p =>
        rw [hd] at h
        obtain ⟨m0, a0, b0, r0⟩ := p
        simp only [Option.map_some', Option.some.injEq, Prod.mk.injEq] at h
        obtain ⟨h1, -, -, h4⟩ := h
        have ht := matchDigits_eq_append hd
        subst hc
        simp [← h1, ← h4, ht]
    · exact matchDigits_eq_append h

theorem findMarker_cons_some {c : Char} {cs pre m : List Char} {mi se : Nat}
    {suf : List Char} (h : findMarker (c :: cs) = some (pre, m, mi, se, suf)) :
    (pre = [] ∧ matchMarkerAt (c :: cs) = some (m, mi, se, suf)) ∨
    (∃ pre', pre = c :: pre' ∧ matchMarkerAt (c :: cs) = none ∧
      findMarker cs = some (pre', m, mi, se, suf)) := by
  simp only [findMarker] at h
  cases hma : matchMarkerAt (c :: cs) with
  | some p =>
    rw [hma] at h
    obtain ⟨m0, a0, b0, r0⟩ := p
    simp only [Option.some.injEq, Prod.mk.injEq] at h
    obtain ⟨h1, h2, h3, h4, h5⟩ := h
    subst h2
    subst h3
    subst h4
    subst h5
    exact Or.inl ⟨h1.symm, rfl⟩
  | none =>
    rw [hma] at h
    cases hf : findMarker cs with
    | none => rw [hf] at h; simp at h
    | some r =>
      rw [hf] at h
      obtain ⟨p0, m0, a0, b0, r0⟩ := r
      simp only [Option.map_some', Option.some.injEq, Prod.mk.injEq] at h
      obtain ⟨h1, h2, h3, h4, h5⟩ := h
      subst h2
      subst h3
      subst h4
      subst h5
      exact Or.inr ⟨p0, h1.symm, rfl, rfl⟩

theorem findMarker_eq_append {l pre m : List Char} {mi se : Nat} {suf : List Char}
    (h : findMarker l = some (pre, m, mi, se, suf)) : l = pre ++ m ++ suf := by
  induction l generalizing pre with
  | nil => simp [findMarker] at h
  | cons c cs ih =>
    rcases findMarker_cons_some h with ⟨hpre, hma⟩ | ⟨pre', hpre, _hma, hf⟩
    · subst hpre
      simpa using matchMarkerAt_eq_append hma
    · subst hpre
      simp [ih hf]

/-- Whether `matchMarkerAt` fails is determined by at most the first six
characters; replacing the tail beyond a nonempty prefix `w` by a list that
starts with `(` cannot create a match that was not already there. -/
theorem matchMarkerAt_none_transfer (w zO zN : List Char) (hw : w ≠ [])
    (hN : zN.head? = some '(') (h : matchMarkerAt (w ++ zO) = none) :
    matchMarkerAt (w ++ zN) = none := by
  obtain ⟨zN', rfl⟩ : ∃ zN', zN = '(' :: zN' := by
    cases zN with
    | nil => simp at hN
    | cons c t => simp only [List.head?, Option.some.injEq] at hN; exact ⟨t, by rw [hN]⟩
  rcases w with _ | ⟨a, _ | ⟨b, _ | ⟨c, _ | ⟨d, _ | ⟨e, _ | ⟨f, w'⟩⟩⟩⟩⟩⟩
  · exact absurd rfl hw
  · simp only [List.cons_append, List.nil_append, matchMarkerAt]
    split_ifs with hc
    · rw [matchDigits_lp1]
      rfl
    · rw [matchDigits_lp2]
  · simp only [List.cons_append, List.nil_append, matchMarkerAt]
    split_ifs with hc
    · rw [matchDigits_lp2]
      rfl
    · rw [matchDigits_lp3]
  · simp only [List.cons_append, List.nil_append, matchMarkerAt]
    split_ifs with hc
    · rw [matchDigits_lp3]
      rfl
    · rw [matchDigits_lp4]
  · simp only [List.cons_append, List.nil_append, matchMarkerAt]
    split_ifs with hc
    · rw [matchDigits_lp4]
      rfl
    · rw [matchDigits_lp5]
  · simp only [List.cons_append, List.nil_append, matchMarkerAt] at h ⊢
    split_ifs with hc
    · rw [matchDigits_lp5]
      rfl
    · rw [if_neg hc] at h
      rw [matchDigits_five] at h ⊢
      exact h
  · simp only [List.cons_append, matchMarkerAt] at h ⊢
    split_ifs with hc
    · rw [if_pos hc] at h
      simp only [Option.map_eq_none'] at h ⊢
      rw [matchDigits_five] at h ⊢
      exact h
    · rw [if_neg hc] at h
      rw [matchDigits_five] at h ⊢
      exact h

/-- Replacing the leftmost marker match of a line by a fresh
seven-character `(dd:dd)` timestamp makes that timestamp the leftmost match
of the rewritten line. -/
theorem findMarker_rewrite {l pre m : List Char} {mi se : Nat} {suf : List Char}
    (h : findMarker l = some (pre, m, mi, se, suf)) (a b c d : Char)
    (ha : a.isDigit) (hb : b.isDigit) (hc : c.isDigit) (hd : d.isDigit) :
    findMarker (pre ++ ('(' :: a :: b :: ':' :: c :: d :: ')' :: suf)) =
      some (pre, ['(', a, b, ':', c, d, ')'],
        10 * digitVal a + digitVal b, 10 * digitVal c + digitVal d, suf) := by
  induction l generalizing pre with
  | nil => simp [findMarker] at h
  | cons c0 l' ih =>
    rcases findMarker_cons_some h with ⟨hpre, _hma⟩ | ⟨pre', hpre, hma, hf⟩
    · subst hpre
      simp only [List.nil_append, findMarker, matchMarkerAt, if_pos rfl, matchDigits,
        ha, hb, hc, hd]
      simp
    · subst hpre
      have hl' : l' = pre' ++ m ++ suf := findMarker_eq_append hf
      have htr : matchMarkerAt (c0 :: (pre' ++ ('(' :: a :: b :: ':' :: c :: d :: ')' :: suf))) = none := by
        have h0 : matchMarkerAt ((c0 :: pre') ++ (m ++ suf)) = none := by
          simpa [hl', List.append_assoc] using hma
        have h1 := matchMarkerAt_none_transfer (c0 :: pre') (m ++ suf)
          ('(' :: a :: b :: ':' :: c :: d :: ')' :: suf) (by simp) rfl h0
        simpa using h1
      rw [List.cons_append, findMarker, htr, ih hf]
      rfl

/-! ## Shape of rendered numbers and timestamps -/

theorem decChar_isDigit : ∀ n, n < 10 → (decChar n).isDigit := by decide

theorem natToDecCore_all_digit (fuel : Nat) :
    ∀ n, ∀ c ∈ natToDecCore fuel n, c.isDigit := by
  induction fuel with
  | zero => simp [natToDecCore]
  | succ f ih =>
    intro n c hc
    simp only [natToDecCore] at hc
    split_ifs at hc with h
    · simp only [List.mem_singleton] at hc
      exact hc ▸ decChar_isDigit n h
    · rcases List.mem_append.mp hc with h1 | h1
      · exact ih (n / 10) c h1
      · simp only [List.mem_singleton] at h1
        exact h1 ▸ decChar_isDigit (n % 10) (Nat.mod_lt n (by norm_num))

theorem natToDec_all_digit (n : Nat) : ∀ c ∈ natToDec n, c.isDigit :=
  natToDecCore_all_digit (n + 1) n

theorem padLeft_all_digit (w : Nat) (s : List Char) (hs : ∀ c ∈ s, c.isDigit) :
    ∀ c ∈ padLeft w s, c.isDigit := by
  intro c hc
  rcases List.mem_append.mp hc with h1 | h1
  · have := List.eq_of_mem_replicate h1
    simp [this, Char.isDigit]
  · exact hs c h1

theorem fmtTS_no_nl (n : Nat) : '\n' ∉ fmtTS n := by
  intro h
  have hA := padLeft_all_digit 2 (natToDec (n / 60)) (natToDec_all_digit _)
  have hB := padLeft_all_digit 2 (natToDec (n % 60)) (natToDec_all_digit _)
  unfold fmtTS at h
  rcases List.mem_cons.mp h with h1 | h1
  · exact absurd h1 (by decide)
  rcases List.mem_append.mp h1 with h2 | h2
  · rcases List.mem_append.mp h2 with h3 | h3
    · exact absurd (hA _ h3) (by decide)
    · rcases List.mem_cons.mp h3 with h4 | h4
      · exact absurd h4 (by decide)
      · exact absurd (hB _ h4) (by decide)
  · simp at h2

theorem pad2_len_all : ∀ n : Nat, n < 100 →
    (padLeft 2 (natToDec n)).length = 2 ∧ (padLeft 2 (natToDec n)).all Char.isDigit := by
  decide

theorem pad2_shape (n : Nat) (hn : n < 100) :
    ∃ a b, padLeft 2 (natToDec n) = [a, b] ∧ a.isDigit ∧ b.isDigit := by
  obtain ⟨hlen, hall⟩ := pad2_len_all n hn
  rcases hl : padLeft 2 (natToDec n) with _ | ⟨a, _ | ⟨b, _ | ⟨c, t⟩⟩⟩ <;>
    rw [hl] at hlen <;> simp at hlen
  rw [hl] at hall
  simp only [List.all_cons, List.all_nil, Bool.and_true, Bool.and_eq_true] at hall
  exact ⟨a, b, rfl, hall.1, hall.2⟩

theorem fmtTS_shape (n : Nat) (hn : n < 6000) :
    ∃ a b c d, fmtTS n = ['(', a, b, ':', c, d, ')'] ∧
      a.isDigit ∧ b.isDigit ∧ c.isDigit ∧ d.isDigit := by
  have hmin : n / 60 < 100 := by omega
  have hsec : n % 60 < 100 := lt_trans (Nat.mod_lt n (by norm_num)) (by norm_num)
  obtain ⟨a, b, hab, ha, hb⟩ := pad2_shape (n / 60) hmin
  obtain ⟨c, d, hcd, hc, hd⟩ := pad2_shape (n % 60) hsec
  refine ⟨a, b, c, d, ?_, ha, hb, hc, hd⟩
  simp [fmtTS, hab, hcd]

theorem jsFloor_lt_of {t : ℚ} {n : Nat} (hn : 0 < n) (h : t < n) : jsFloor t < n := by
  have h1 : (Int.floor t : ℤ) < (n : ℤ) := by
    rw [Int.floor_lt]
    exact_mod_cast h
  simp only [jsFloor]
  omega

theorem clockStep_nonneg (l : List Char) : 0 ≤ clockStep l := by
  unfold clockStep
  split_ifs
  · exact le_refl 0
  · exact le_refl 0
  · positivity

/-! ## The recalculation pass -/

theorem clockStep_of_marker {l : List Char} (h : (findMarker l).isSome) :
    clockStep l = 0 := by
  simp [clockStep, h]

theorem recalc_step_eq (l : List Char) (t : ℚ) (h : findMarker l = none) :
    (if l.head? ≠ some '#' ∧ 0 < (trim l).length then t + (l.length : ℚ) / 4.5 else t) =
      t + clockStep l := by
  have hs : (findMarker l).isSome = false := by simp [h]
  by_cases hh : l.head? = some '#' ∨ trim l = []
  · rw [if_neg, clockStep, if_neg (by simp [hs]), if_pos hh]
    · ring
    · rcases hh with hh | hh
      · intro hc
        exact hc.1 hh
      · intro hc
        rw [hh] at hc
        simp at hc
  · push_neg at hh
    rw [if_pos, clockStep, if_neg (by simp [hs]), if_neg (by push_neg; exact hh)]
    refine ⟨hh.1, ?_⟩
    have := hh.2
    cases hl : trim l with
    | nil => exact absurd hl this
    | cons a b => simp [hl]

theorem clockAt_zero (ls : List (List Char)) : clockAt ls 0 = 0 := by
  simp [clockAt]

theorem clockAt_succ_cons (l : List Char) (ls : List (List Char)) (i : Nat) :
    clockAt (l :: ls) (i + 1) = clockStep l + clockAt ls i := by
  simp [clockAt, List.take_succ_cons]

theorem recalcGo_eq_indexed (ls : List (List Char)) (t : ℚ) :
    recalcGo t ls = (List.range ls.length).map (rewriteLineAt t ls) := by
  induction ls generalizing t with
  | nil => simp [recalcGo]
  | cons l ls ih =>
    have hmap : (List.range (l :: ls).length).map (rewriteLineAt t (l :: ls)) =
        rewriteLineAt t (l :: ls) 0 ::
          (List.range ls.length).map (fun i => rewriteLineAt t (l :: ls) (i + 1)) := by
      rw [List.length_cons, List.range_succ_eq_map, List.map_cons, List.map_map]
      rfl
    rw [hmap]
    have hstep : ∀ i, rewriteLineAt t (l :: ls) (i + 1) = rewriteLineAt (t + clockStep l) ls i := by
      intro i
      simp only [rewriteLineAt, List.getD_cons_succ, clockAt_succ_cons]
      rw [add_assoc]
    simp only [hstep]
    cases hm : findMarker l with
    | some r =>
      obtain ⟨pre, m, mi, se, suf⟩ := r
      have hstep0 : clockStep l = 0 := clockStep_of_marker (by simp [hm])
      simp only [recalcGo, hm, rewriteLineAt, List.getD_cons_zero, clockAt_zero, add_zero,
        hstep0]
      rw [ih t]
      rfl
    | none =>
      simp only [recalcGo, hm, rewriteLineAt, List.getD_cons_zero, clockAt_zero, add_zero]
      rw [recalc_step_eq l t hm, ih (t + clockStep l)]
      rfl

theorem recalcGo_length (ls : List (List Char)) (t : ℚ) :
    (recalcGo t ls).length = ls.length := by
  induction ls generalizing t with
  | nil => rfl
  | cons l ls ih =>
    cases hm : findMarker l with
    | some r =>
      obtain ⟨pre, m, mi, se, suf⟩ := r
      simp [recalcGo, hm, ih]
    | none => simp [recalcGo, hm, ih]

theorem recalcGo_no_nl (ls : List (List Char)) (t : ℚ) (h : ∀ l ∈ ls, '\n' ∉ l) :
    ∀ l' ∈ recalcGo t ls, '\n' ∉ l' := by
  induction ls generalizing t with
  | nil => simp [recalcGo]
  | cons l ls ih =>
    intro l' hl'
    cases hm : findMarker l with
    | some r =>
      obtain ⟨pre, m, mi, se, suf⟩ := r
      rw [recalcGo, hm] at hl'
      rcases List.mem_cons.mp hl' with h1 | h1
      · subst h1
        intro hmem
        have hsplit : l = pre ++ m ++ suf := findMarker_eq_append hm
        have hl : '\n' ∉ l := h l (by simp)
        rcases List.mem_append.mp hmem with h2 | h2
        · rcases List.mem_append.mp h2 with h3 | h3
          · exact hl (by simp [hsplit, h3])
          · exact fmtTS_no_nl _ h3
        · exact hl (by simp [hsplit, h2])
      · exact ih t (fun x hx => h x (List.mem_cons_of_mem _ hx)) l' h1
    | none =>
      rw [recalcGo, hm] at hl'
      rcases List.mem_cons.mp hl' with h1 | h1
      · exact h l (by simp) ∘ (h1 ▸ id)
      · exact ih _ (fun x hx => h x (List.mem_cons_of_mem _ hx)) l' h1

theorem sum_clockStep_nonneg (ls : List (List Char)) :
    0 ≤ (ls.map clockStep).sum := by
  induction ls with
  | nil => simp
  | cons l ls ih =>
    simp only [List.map_cons, List.sum_cons]
    exact add_nonneg (clockStep_nonneg l) ih

theorem recalcGo_idem (ls : List (List Char)) (t : ℚ) (ht : 0 ≤ t)
    (hb : t + (ls.map clockStep).sum < 6000) :
    recalcGo t (recalcGo t ls) = recalcGo t ls := by
  induction ls generalizing t with
  | nil => rfl
  | cons l ls ih =>
    cases hm : findMarker l with
    | some r =>
      obtain ⟨pre, m, mi, se, suf⟩ := r
      have hstep0 : clockStep l = 0 := clockStep_of_marker (by simp [hm])
      have ht6 : t < 6000 := by
        have := sum_clockStep_nonneg (l :: ls)
        linarith
      have hjf : jsFloor t < 6000 := jsFloor_lt_of (by norm_num) ht6
      obtain ⟨a, b, c, d, hsh, ha, hb', hc, hd⟩ := fmtTS_shape (jsFloor t) hjf
      have hfm : findMarker (pre ++ fmtTS (jsFloor t) ++ suf) =
          some (pre, ['(', a, b, ':', c, d, ')'],
            10 * digitVal a + digitVal b, 10 * digitVal c + digitVal d, suf) := by
        rw [hsh]
        have heq : pre ++ ['(', a, b, ':', c, d, ')'] ++ suf =
            pre ++ ('(' :: a :: b :: ':' :: c :: d :: ')' :: suf) := by
          simp
        rw [heq]
        exact findMarker_rewrite hm a b c d ha hb' hc hd
      have hbsum : t + (ls.map clockStep).sum < 6000 := by
        simp only [List.map_cons, List.sum_cons, hstep0, zero_add] at hb
        exact hb
      simp only [recalcGo, hm, hfm]
      rw [ih t ht hbsum]
    | none =>
      have hstep := recalc_step_eq l t hm
      have hb' : (t + clockStep l) + (ls.map clockStep).sum < 6000 := by
        simp only [List.map_cons, List.sum_cons] at hb
        linarith
      have ht' : 0 ≤ t + clockStep l := add_nonneg ht (clockStep_nonneg l)
      simp only [recalcGo, hm, hstep]
      rw [ih (t + clockStep l) ht' hb']

/-! ## The subtitle synthesis pass -/

theorem srtLoop_length (ls : List (List Char)) :
    ∀ cur, (srtLoop ls cur).length =
      ls.countP (fun l => (findMarker l).isSome) +
        (match cur with | some _ => 1 | none => 0) := by
  induction ls with
  | nil =>
    intro cur
    rcases cur with _ | ⟨st, ts⟩ <;> simp [srtLoop]
  | cons l ls ih =>
    intro cur
    cases hm : findMarker l with
    | some r =>
      obtain ⟨pre, m, mi, se, suf⟩ := r
      have hc : (findMarker l).isSome = true := by simp [hm]
      rcases cur with _ | ⟨st, ts⟩ <;>
        simp [srtLoop, hm, ih, List.countP_cons, hc]
    | none =>
      have hc : (findMarker l).isSome = false := by simp [hm]
      rcases cur with _ | ⟨st, ts⟩ <;>
        simp [srtLoop, hm, ih, List.countP_cons, hc]

theorem srtLoop_map_fst_some (ls : List (List Char)) :
    ∀ st ts, (srtLoop ls (some (st, ts))).map Prod.fst = st :: markerStarts ls := by
  induction ls with
  | nil => intro st ts; simp [srtLoop, markerStarts]
  | cons l ls ih =>
    intro st ts
    cases hm : findMarker l with
    | some r =>
      obtain ⟨pre, m, mi, se, suf⟩ := r
      simp [srtLoop, hm, ih, markerStarts]
    | none =>
      simp [srtLoop, hm, ih, markerStarts]

theorem srtLoop_map_fst_none (ls : List (List Char)) :
    (srtLoop ls none).map Prod.fst = markerStarts ls := by
  induction ls with
  | nil => simp [srtLoop, markerStarts]
  | cons l ls ih =>
    cases hm : findMarker l with
    | some r =>
      obtain ⟨pre, m, mi, se, suf⟩ := r
      simp [srtLoop, hm, srtLoop_map_fst_some, markerStarts]
    | none => simp [srtLoop, hm, ih, markerStarts]

theorem srtLoop_skip (ls rest : List (List Char))
    (h : ∀ l ∈ ls, findMarker l = none) :
    srtLoop (ls ++ rest) none = srtLoop rest none := by
  induction ls with
  | nil => rfl
  | cons l ls ih =>
    have hm : findMarker l = none := h l (by simp)
    simp only [List.cons_append, srtLoop, hm]
    exact ih (fun x hx => h x (List.mem_cons_of_mem _ hx))

theorem recalcGo_id (ls : List (List Char)) (t : ℚ)
    (h : ∀ l ∈ ls, findMarker l = none) : recalcGo t ls = ls := by
  induction ls generalizing t with
  | nil => rfl
  | cons l ls ih =>
    have hm : findMarker l = none := h l (by simp)
    simp only [recalcGo, hm]
    rw [ih _ (fun x hx => h x (List.mem_cons_of_mem _ hx))]

theorem endTimes_length (es : List (Nat × List Char)) :
    (endTimes es).length = es.length := by
  induction es with
  | nil => rfl
  | cons e es ih => simp [endTimes, ih]

theorem endTimes_getD_mid (es : List (Nat × List Char)) :
    ∀ i, i + 1 < es.length →
      (endTimes es).getD i 0 = ((es.getD (i + 1) (0, [])).1 : ℚ) := by
  induction es with
  | nil => intro i h; simp at h
  | cons e es ih =>
    intro i h
    cases i with
    | zero =>
      rcases es with _ | ⟨e2, es'⟩
      · simp at h
      · simp [endTimes, endOf]
    | succ i =>
      have h' : i + 1 < es.length := by simpa using h
      simp only [endTimes, List.getD_cons_succ]
      exact ih i h'

theorem endTimes_getD_last (es : List (Nat × List Char)) :
    ∀ i, i + 1 = es.length →
      (endTimes es).getD i 0 = endOf (es.getD i (0, [])) none := by
  induction es with
  | nil => intro i h; simp at h
  | cons e es ih =>
    intro i h
    cases i with
    | zero =>
      rcases es with _ | ⟨e2, es'⟩
      · simp [endTimes]
      · simp at h
    | succ i =>
      have h' : i + 1 = es.length := by simpa using h
      simp only [endTimes, List.getD_cons_succ]
      exact ih i h'

theorem endOf_none_ge (e : Nat × List Char) : (e.1 : ℚ) ≤ endOf e none := by
  simp only [endOf]
  have h3 : (0 : ℚ) ≤ max 3 ((e.2.length : ℚ) / 10) :=
    le_trans (by norm_num) (le_max_left _ _)
  linarith

theorem srt_end_ge_start (es : List (Nat × List Char))
    (hmono : List.Chain' (· ≤ ·) (es.map Prod.fst)) :
    ∀ i, i < es.length → ((es.getD i (0, [])).1 : ℚ) ≤ (endTimes es).getD i 0 := by
  induction es with
  | nil => intro i h; simp at h
  | cons e es ih =>
    intro i h
    cases i with
    | zero =>
      rcases es with _ | ⟨e2, es'⟩
      · simpa [endTimes] using endOf_none_ge e
      · simp only [endTimes, List.getD_cons_zero, endOf, List.head?, Option.map_some']
        simp only [List.map_cons, List.chain'_cons] at hmono
        exact_mod_cast hmono.1
    | succ i =>
      have h' : i < es.length := by simpa using h
      have hmono' : List.Chain' (· ≤ ·) (es.map Prod.fst) := by
        simp only [List.map_cons] at hmono
        exact hmono.tail
      simp only [endTimes, List.getD_cons_succ]
      exact ih hmono' i h'

theorem renderAll_length (es : List (Nat × List Char)) :
    ∀ j, (renderAll j es).length = es.length := by
  induction es with
  | nil => intro j; rfl
  | cons e es ih => intro j; simp [renderAll, ih]

theorem renderAll_prefix (es : List (Nat × List Char)) :
    ∀ j i, i < es.length →
      List.IsPrefix (natToDec (j + i) ++ ['\n']) ((renderAll j es).getD i []) := by
  induction es with
  | nil => intro j i h; simp at h
  | cons e es ih =>
    intro j i h
    cases i with
    | zero =>
      refine ⟨formatSRTTime ((e.1 : ℚ)) ++
        ' ' :: '-' :: '-' :: '>' :: ' ' :: formatSRTTime (endOf e (es.head?.map Prod.fst)) ++
        '\n' :: e.2 ++ ['\n'], ?_⟩
      simp [renderAll, renderBlock]
    | succ i =>
      have h' : i < es.length := by simpa using h
      have := ih (j + 1) i h'
      simp only [renderAll, List.getD_cons_succ]
      have harith : j + 1 + i = j + (i + 1) := by omega
      rw [harith] at this
      exact this

/-! ## Claim C1: one caption entry per marker line, numbered 1..k in order -/

/-- C1.  A script with `k` marker lines yields exactly `k` entries; the
entries' start times are the decoded marker values in textual order; the
rendered output is the newline-join of the cue blocks; and block `i`
(0-based) begins with the 1-based sequence number `i + 1` and a newline. -/
theorem claim_C1 (cs : List Char) :
    (srtEntries cs).length =
      (splitLines cs).countP (fun l => (findMarker l).isSome) ∧
    (srtEntries cs).map Prod.fst = markerStarts (splitLines cs) ∧
    generateSRT cs = joinLines (renderAll 1 (srtEntries cs)) ∧
    ∀ i, i < (srtEntries cs).length →
      List.IsPrefix (natToDec (i + 1) ++ ['\n'])
        ((renderAll 1 (srtEntries cs)).getD i []) := by
  refine ⟨?_, srtLoop_map_fst_none _, rfl, ?_⟩
  · simpa using srtLoop_length (splitLines cs) none
  · intro i h
    have := renderAll_prefix (srtEntries cs) 1 i h
    rwa [Nat.add_comm 1 i] at this

theorem claim_C1_witness :
    ((srtEntries "(00:00) Hello\n(00:30) World".data).length =
      (splitLines "(00:00) Hello\n(00:30) World".data).countP
        (fun l => (findMarker l).isSome)) ∧
    List.IsPrefix (natToDec (0 + 1) ++ ['\n'])
      ((renderAll 1 (srtEntries "(00:00) Hello\n(00:30) World".data)).getD 0 []) :=
  ⟨(claim_C1 _).1, (claim_C1 _).2.2.2 0 (by decide)⟩

/-! ## Claim C2: end/start relations of synthesized entries -/

/-- C2 counterexample.  The code copies marker times without checking
monotonicity, so with markers `(00:30)` before `(00:00)` the first entry
ends (at second 0) strictly before it starts (at second 30): the claimed
invariant `endSeconds ≥ startSeconds` fails. -/
theorem claim_C2_cex :
    srtEntries "(00:30) A\n(00:00) B".data = [(30, "A".data), (0, "B".data)] ∧
    (endTimes (srtEntries "(00:30) A\n(00:00) B".data)).getD 0 0 <
      (((srtEntries "(00:30) A\n(00:00) B".data).getD 0 (0, [])).1 : ℚ) := by
  have he : srtEntries "(00:30) A\n(00:00) B".data =
      [(30, "A".data), (0, "B".data)] := by decide
  refine ⟨he, ?_⟩
  rw [he]
  simp only [endTimes, endOf, List.head?, Option.map_some', List.getD_cons_zero]
  norm_num

/-- C2 amended.  Every non-final entry ends exactly where the next entry
starts; the invariant `endSeconds ≥ startSeconds` holds for every entry
provided the marker times are non-decreasing in textual order (the final
entry always satisfies it because of the 3-second floor). -/
theorem claim_C2_amended (cs : List Char) :
    (∀ i, i + 1 < (srtEntries cs).length →
      (endTimes (srtEntries cs)).getD i 0 =
        (((srtEntries cs).getD (i + 1) (0, [])).1 : ℚ)) ∧
    (List.Chain' (· ≤ ·) ((srtEntries cs).map Prod.fst) →
      ∀ i, i < (srtEntries cs).length →
        (((srtEntries cs).getD i (0, [])).1 : ℚ) ≤ (endTimes (srtEntries cs)).getD i 0) :=
  ⟨endTimes_getD_mid _, srt_end_ge_start _⟩

theorem claim_C2_amended_witness :
    ((endTimes (srtEntries "(00:00) Hello\n(00:30) World".data)).getD 0 0 =
      (((srtEntries "(00:00) Hello\n(00:30) World".data).getD 1 (0, [])).1 : ℚ)) ∧
    ((((srtEntries "(00:00) Hello\n(00:30) World".data).getD 0 (0, [])).1 : ℚ) ≤
      (endTimes (srtEntries "(00:00) Hello\n(00:30) World".data)).getD 0 0) :=
  ⟨(claim_C2_amended _).1 0 (by decide),
   (claim_C2_amended _).2
     (by
       have he : srtEntries "(00:00) Hello\n(00:30) World".data =
           [(0, "Hello".data), (30, "World".data)] := by decide
       rw [he]
       simp)
     0 (by decide)⟩

/-! ## Claim C7: marker-free scripts -/

/-- C7.  If no line of the script matches the marker pattern then
`generateSRT` returns the empty string and `recalculateTimestamps` returns
its input unchanged (both functions are total by construction). -/
theorem claim_C7 (cs : List Char)
    (h : ∀ l ∈ splitLines cs, findMarker l = none) :
    generateSRT cs = [] ∧ recalculateTimestamps cs = cs := by
  constructor
  · have h1 : srtEntries cs = [] := by
      have := srtLoop_skip (splitLines cs) [] h
      simpa [srtEntries] using this
    simp [generateSRT, h1, renderAll, joinLines]
  · unfold recalculateTimestamps
    rw [recalcGo_id _ _ h, joinLines_splitLines]

theorem claim_C7_witness :
    generateSRT "hello\nworld".data = [] ∧
    recalculateTimestamps "hello\nworld".data = "hello\nworld".data :=
  claim_C7 _ (by decide)

/-! ## Claim C10: content before the first marker is ignored -/

/-- C10.  Lines before the first marker line contribute nothing: the
entries equal those computed from the remaining lines alone, and the first
entry's start time is the first marker's decoded value. -/
theorem claim_C10 (cs : List Char) (n : Nat)
    (h : ∀ l ∈ (splitLines cs).take n, findMarker l = none) :
    srtEntries cs = srtLoop ((splitLines cs).drop n) none ∧
    ((srtEntries cs).head?.map Prod.fst = (markerStarts (splitLines cs)).head?) := by
  constructor
  · have := srtLoop_skip ((splitLines cs).take n) ((splitLines cs).drop n) h
    rw [List.take_append_drop] at this
    exact this
  · rw [← srtLoop_map_fst_none (splitLines cs), srtEntries, List.head?_map]

theorem claim_C10_witness :
    (srtEntries "intro words\n(00:05) Hi".data =
      srtLoop ((splitLines "intro words\n(00:05) Hi".data).drop 1) none) ∧
    ((srtEntries "intro words\n(00:05) Hi".data).head?.map Prod.fst =
      (markerStarts (splitLines "intro words\n(00:05) Hi".data)).head?) :=
  claim_C10 _ 1 (by decide)

/-! ## Claim C6: the recalculation is a frame transformation -/

theorem getD_map_range (f : Nat → List Char) (n i : Nat) (h : i < n) :
    (((List.range n).map f).getD i []) = f i := by
  rw [List.getD_eq_getElem?_getD, List.getElem?_map, List.getElem?_range h]
  rfl

theorem splitLines_recalc (cs : List Char) :
    splitLines (recalculateTimestamps cs) = recalcGo 0 (splitLines cs) := by
  unfold recalculateTimestamps
  apply splitLines_joinLines
  · intro hnil
    have hlen := recalcGo_length (splitLines cs) 0
    rw [hnil] at hlen
    exact splitLines_ne_nil cs (List.length_eq_zero.mp hlen.symm)
  · exact recalcGo_no_nl _ _ (splitLines_no_nl cs)

/-- C6.  `recalculateTimestamps` preserves the number and order of lines;
a line without a marker is returned byte-identical, and a marker line
`pre ++ match ++ suf` is returned as `pre ++ newTimestamp ++ suf`, so every
character outside the matched marker substring is untouched. -/
theorem claim_C6 (cs : List Char) :
    (splitLines (recalculateTimestamps cs)).length = (splitLines cs).length ∧
    ∀ i, i < (splitLines cs).length →
      ((findMarker ((splitLines cs).getD i []) = none →
        (splitLines (recalculateTimestamps cs)).getD i [] = (splitLines cs).getD i []) ∧
       (∀ pre m mi se suf,
          findMarker ((splitLines cs).getD i []) = some (pre, m, mi, se, suf) →
          (splitLines cs).getD i [] = pre ++ m ++ suf ∧
          (splitLines (recalculateTimestamps cs)).getD i [] =
            pre ++ fmtTS (jsFloor (clockAt (splitLines cs) i)) ++ suf)) := by
  have hout : splitLines (recalculateTimestamps cs) = recalcGo 0 (splitLines cs) :=
    splitLines_recalc cs
  have hidx : recalcGo 0 (splitLines cs) =
      (List.range (splitLines cs).length).map (rewriteLineAt 0 (splitLines cs)) :=
    recalcGo_eq_indexed _ 0
  constructor
  · rw [hout, recalcGo_length]
  · intro i h
    have hget : (splitLines (recalculateTimestamps cs)).getD i [] =
        rewriteLineAt 0 (splitLines cs) i := by
      rw [hout, hidx, getD_map_range _ _ _ h]
    constructor
    · intro hm
      rw [hget]
      unfold rewriteLineAt
      rw [hm]
    · intro pre m mi se suf hm
      refine ⟨findMarker_eq_append hm, ?_⟩
      rw [hget]
      unfold rewriteLineAt
      rw [hm]
      simp

theorem claim_C6_witness :
    ((splitLines (recalculateTimestamps "(00:07) Hi\nrest".data)).length =
      (splitLines "(00:07) Hi\nrest".data).length) ∧
    ((splitLines "(00:07) Hi\nrest".data).getD 0 [] =
      [] ++ "(00:07)".data ++ " Hi".data) ∧
    ((splitLines (recalculateTimestamps "(00:07) Hi\nrest".data)).getD 0 [] =
      [] ++ fmtTS (jsFloor (clockAt (splitLines "(00:07) Hi\nrest".data) 0)) ++ " Hi".data) := by
  have h := claim_C6 "(00:07) Hi\nrest".data
  have h2 := (h.2 0 (by decide)).2 [] "(00:07)".data 0 7 " Hi".data (by decide)
  exact ⟨h.1, h2.1, h2.2⟩

/-! ## Claim C4: the recalculation clock model -/

/-- C4 amended.  The stateful pass of `recalculateTimestamps` coincides
with the claim's indexed description `recalcSpec`: each marker line has
only its first matched marker substring replaced by `(MM:SS)` rendered
from the floored running clock with both fields zero-padded to **at
least** two digits (three or more digits appear once the clock reaches
100 minutes), marker lines contribute nothing to the clock, and a
non-marker line advances the clock by `length / 4.5` exactly when it is
neither blank nor a heading (leading `#`). -/
theorem claim_C4_amended (cs : List Char) :
    recalculateTimestamps cs = recalcSpec cs := by
  unfold recalculateTimestamps recalcSpec
  congr 1
  rw [recalcGo_eq_indexed]
  apply List.map_congr_left
  intro i _
  simp only [rewriteLineAt, rewriteLine, zero_add]

/-! ## Claims C4 and C5: behaviour once the clock reaches 100 minutes -/

theorem matchDigits_head_not_digit (c : Char) (t : List Char)
    (h : c.isDigit = false) : matchDigits (c :: t) = none := by
  rcases t with _ | ⟨a, _ | ⟨b, _ | ⟨d, _ | ⟨e, r⟩⟩⟩⟩
  · simp [matchDigits]
  · simp [matchDigits]
  · simp [matchDigits]
  · simp [matchDigits]
  · exact (matchDigits_five c a b d e r).mpr (by simp [h])

theorem findMarker_replicate_a (n : Nat) :
    findMarker (List.replicate n 'a') = none := by
  induction n with
  | zero => simp [findMarker]
  | succ n ih =>
    rw [List.replicate_succ]
    have hma : matchMarkerAt ('a' :: List.replicate n 'a') = none := by
      rw [matchMarkerAt, if_neg (by decide)]
      exact matchDigits_head_not_digit 'a' _ (by decide)
    rw [findMarker, hma, ih]
    rfl

theorem dropWhile_isWS_replicate_a (n : Nat) :
    List.dropWhile isWS (List.replicate n 'a') = List.replicate n 'a' := by
  cases n with
  | zero => rfl
  | succ n => rw [List.replicate_succ, List.dropWhile_cons, if_neg (by decide)]

theorem trim_replicate_a (n : Nat) :
    trim (List.replicate n 'a') = List.replicate n 'a' := by
  unfold trim
  rw [dropWhile_isWS_replicate_a, List.reverse_replicate, dropWhile_isWS_replicate_a,
    List.reverse_replicate]

theorem recalc_big_gen (l2 pre m suf : List Char) (mi se : Nat)
    (h2 : findMarker l2 = some (pre, m, mi, se, suf)) (hnl2 : splitLines l2 = [l2]) :
    recalculateTimestamps (List.replicate 27000 'a' ++ '\n' :: l2) =
      List.replicate 27000 'a' ++ '\n' :: (pre ++ fmtTS 6000 ++ suf) := by
  have hnl : '\n' ∉ List.replicate 27000 'a' := by
    intro hmem
    exact absurd (List.eq_of_mem_replicate hmem) (by decide)
  have hsplit : splitLines (List.replicate 27000 'a' ++ '\n' :: l2) =
      [List.replicate 27000 'a', l2] := by
    rw [splitLines_mid_nl _ _ hnl, hnl2]
  have hhead : (List.replicate 27000 'a').head? = some 'a' := by
    rw [show (27000 : Nat) = 26999 + 1 by norm_num, List.replicate_succ]
    rfl
  have hcond : (List.replicate 27000 'a').head? ≠ some '#' ∧
      0 < (trim (List.replicate 27000 'a')).length := by
    constructor
    · rw [hhead]
      simp
    · rw [trim_replicate_a, List.length_replicate]
      norm_num
  have hclock : (0 : ℚ) + ((List.replicate 27000 'a').length : ℚ) / 4.5 =
      ((6000 : Nat) : ℚ) := by
    rw [List.length_replicate]
    push_cast
    norm_num
  unfold recalculateTimestamps
  rw [hsplit]
  rw [show recalcGo 0 [List.replicate 27000 'a', l2] =
      List.replicate 27000 'a' ::
        recalcGo ((0 : ℚ) + ((List.replicate 27000 'a').length : ℚ) / 4.5) [l2] by
    rw [recalcGo, findMarker_replicate_a, if_pos hcond]]
  rw [hclock]
  rw [show recalcGo ((6000 : Nat) : ℚ) [l2] =
      [pre ++ fmtTS (jsFloor ((6000 : Nat) : ℚ)) ++ suf] by
    rw [recalcGo, h2]
    rfl]
  rw [jsFloor_natCast]
  rfl

theorem recalc_big :
    recalculateTimestamps (List.replicate 27000 'a' ++ '\n' :: "00:00".data) =
      List.replicate 27000 'a' ++ '\n' :: "(100:00)".data := by
  rw [recalc_big_gen "00:00".data [] "00:00".data [] 0 0 (by decide) (by decide)]
  have : ([] : List Char) ++ fmtTS 6000 ++ [] = "(100:00)".data := by decide
  rw [this]

theorem recalc_big2 :
    recalculateTimestamps (List.replicate 27000 'a' ++ '\n' :: "(100:00)".data) =
      List.replicate 27000 'a' ++ '\n' :: "(1(100:00)".data := by
  rw [recalc_big_gen "(100:00)".data "(1".data "00:00)".data [] 0 0 (by decide) (by decide)]
  have : "(1".data ++ fmtTS 6000 ++ [] = "(1(100:00)".data := by decide
  rw [this]

/-- C4 counterexample.  After 27000 characters of content the running
clock reaches 6000 seconds, and the rewritten marker is `(100:00)`: the
minutes field has three digits, so the rewritten substring is not of the
claimed 2-digit `(MM:SS)` shape. -/
theorem claim_C4_cex :
    recalculateTimestamps (List.replicate 27000 'a' ++ '\n' :: "00:00".data) =
      List.replicate 27000 'a' ++ '\n' :: "(100:00)".data ∧
    ¬ ∃ a b c d : Char, "(100:00)".data = ['(', a, b, ':', c, d, ')'] := by
  refine ⟨recalc_big, ?_⟩
  rintro ⟨a, b, c, d, h⟩
  have hlen := congrArg List.length h
  have h8 : ("(100:00)".data).length = 8 := by decide
  rw [h8] at hlen
  simp at hlen

/-- C5 counterexample.  On the same input the first pass writes
`(100:00)`; the regex then matches only the substring `00:00)` inside it,
so a second pass inserts a second timestamp (`(1(100:00)`), and
recalculation is not idempotent. -/
theorem claim_C5_cex :
    recalculateTimestamps
        (recalculateTimestamps (List.replicate 27000 'a' ++ '\n' :: "00:00".data)) ≠
      recalculateTimestamps (List.replicate 27000 'a' ++ '\n' :: "00:00".data) := by
  rw [recalc_big, recalc_big2]
  intro h
  have h2 : '\n' :: "(1(100:00)".data = '\n' :: "(100:00)".data :=
    List.append_cancel_left h
  exact absurd h2 (by decide)

/-- C5 amended.  Recalculation is idempotent on every script whose total
estimated duration (the sum of `length / 4.5` over the clock-advancing
lines) stays below 6000 seconds, i.e. below 100 minutes — which keeps
every rewritten marker in the 7-character `(MM:SS)` shape that re-matches
exactly on the second pass. -/
theorem claim_C5_amended (cs : List Char)
    (h : ((splitLines cs).map clockStep).sum < 6000) :
    recalculateTimestamps (recalculateTimestamps cs) = recalculateTimestamps cs := by
  show joinLines (recalcGo 0 (splitLines (recalculateTimestamps cs))) =
    recalculateTimestamps cs
  rw [splitLines_recalc, recalcGo_idem _ 0 le_rfl (by simpa using h)]
  rfl

theorem claim_C5_amended_witness :
    recalculateTimestamps (recalculateTimestamps "(00:30) Hi\nYo".data) =
      recalculateTimestamps "(00:30) Hi\nYo".data := by
  apply claim_C5_amended
  have hs : splitLines "(00:30) Hi\nYo".data = ["(00:30) Hi".data, "Yo".data] := by
    decide
  rw [hs]
  simp only [List.map_cons, List.map_nil, List.sum_cons, List.sum_nil]
  have h1 : clockStep "(00:30) Hi".data = 0 := clockStep_of_marker (by decide)
  have h2 : clockStep "Yo".data = ((2 : Nat) : ℚ) / 4.5 := by
    rw [clockStep, if_neg (by simp [show findMarker "Yo".data = none by decide]),
      if_neg (by decide)]
    rfl
  rw [h1, h2]
  push_cast
  norm_num

/-! ## Claim C3: the trailing-entry end-time heuristic -/

theorem endTimes_getLastSome (es : List (Nat × List Char)) :
    ∀ e, es.getLast? = some e → (endTimes es).getLast? = some (endOf e none) := by
  induction es with
  | nil => intro e h; simp at h
  | cons e0 es ih =>
    intro e h
    cases es with
    | nil =>
      simp only [List.getLast?_singleton, Option.some.injEq] at h
      subst h
      rfl
    | cons e1 es' =>
      have h' : (e1 :: es').getLast? = some e := by
        rwa [List.getLast?_cons_cons] at h
      have hrw : endTimes (e1 :: es') =
          endOf e1 (es'.head?.map Prod.fst) :: endTimes es' := rfl
      show (endOf e0 ((e1 :: es').head?.map Prod.fst) :: endTimes (e1 :: es')).getLast? = _
      rw [hrw, List.getLast?_cons_cons, ← hrw]
      exact ih e h'

/-- C3 counterexample.  For a sole entry whose caption is 35 characters,
the code computes `0 + max(3, 35 / 10) = 3.5` seconds — the division is
**not** floored — so the end time differs from the claimed
`start + max(3, floor(len / 10)) = 3`, and the rendered end timestamp is
`00:00:03,500`, with milliseconds 500 rather than the claimed 000. -/
theorem claim_C3_cex :
    srtEntries ("(00:00) ".data ++ List.replicate 35 'a') =
      [(0, List.replicate 35 'a')] ∧
    (endTimes (srtEntries ("(00:00) ".data ++ List.replicate 35 'a'))).getD 0 0 = 7 / 2 ∧
    (7 / 2 : ℚ) ≠ ((0 : Nat) : ℚ) + max 3 (((Int.floor ((35 : ℚ) / 10)) : ℤ) : ℚ) ∧
    formatSRTTime (7 / 2) = "00:00:03,500".data := by
  have he : srtEntries ("(00:00) ".data ++ List.replicate 35 'a') =
      [(0, List.replicate 35 'a')] := by decide
  refine ⟨he, ?_, ?_, ?_⟩
  · rw [he]
    show endOf (0, List.replicate 35 'a') none = 7 / 2
    simp only [endOf, List.length_replicate]
    rw [max_eq_right (by push_cast; norm_num : (3 : ℚ) ≤ ((35 : Nat) : ℚ) / 10)]
    push_cast
    norm_num
  · have hf : Int.floor ((35 : ℚ) / 10) = 3 := by
      rw [Int.floor_eq_iff]; norm_num
    rw [hf]
    push_cast
    norm_num
  · have f1 : jsFloor ((7 : ℚ) / 2 / 3600) = 0 := jsFloor_eq_of (by norm_num) (by norm_num)
    have m1 : jsMod ((7 : ℚ) / 2) 3600 = 7 / 2 := by
      have hz : Int.floor ((7 : ℚ) / 2 / 3600) = 0 := by
        rw [Int.floor_eq_iff]; norm_num
      simp [jsMod, hz]
    have f2 : jsFloor (jsMod ((7 : ℚ) / 2) 3600 / 60) = 0 := by
      rw [m1]
      exact jsFloor_eq_of (by norm_num) (by norm_num)
    have m2 : jsMod ((7 : ℚ) / 2) 60 = 7 / 2 := by
      have hz : Int.floor ((7 : ℚ) / 2 / 60) = 0 := by
        rw [Int.floor_eq_iff]; norm_num
      simp [jsMod, hz]
    have f3 : jsFloor (jsMod ((7 : ℚ) / 2) 60) = 3 := by
      rw [m2]
      exact jsFloor_eq_of (by norm_num) (by norm_num)
    have m3 : jsMod ((7 : ℚ) / 2) 1 = 1 / 2 := by
      have hz : Int.floor ((7 : ℚ) / 2 / 1) = 3 := by
        rw [Int.floor_eq_iff]; norm_num
      simp only [jsMod, hz]
      norm_num
    have f4 : jsFloor (jsMod ((7 : ℚ) / 2) 1 * 1000) = 500 := by
      rw [m3]
      exact jsFloor_eq_of (by norm_num) (by norm_num)
    simp only [formatSRTTime, f1, f2, f3, f4]
    decide

/-- C3 amended.  The last entry's synthesized end time is
`start + max(3, captionTextLength / 10)` with **no flooring**; every
whole-second value renders with milliseconds `000` (this covers all start
times and all non-final end times, which equal the next start), while the
final end time may be fractional, as the counterexample shows. -/
theorem claim_C3_amended (cs : List Char) (e : Nat × List Char)
    (h : (srtEntries cs).getLast? = some e) :
    (endTimes (srtEntries cs)).getLast? =
      some ((e.1 : ℚ) + max 3 ((e.2.length : ℚ) / 10)) ∧
    (∀ n : Nat, ∃ p, formatSRTTime ((n : ℚ)) = p ++ ',' :: ['0', '0', '0']) ∧
    (∀ i, i + 1 < (srtEntries cs).length →
      (endTimes (srtEntries cs)).getD i 0 =
        (((srtEntries cs).getD (i + 1) (0, [])).1 : ℚ)) := by
  refine ⟨?_, ?_, endTimes_getD_mid _⟩
  · rw [endTimes_getLastSome _ e h]
    rfl
  · intro n
    have hms : jsMod ((n : ℚ)) 1 * 1000 = ((0 : Nat) : ℚ) := by
      rw [jsMod_natCast_one]
      norm_num
    rw [formatSRTTime, hms, jsFloor_natCast]
    rw [show padLeft 3 (natToDec 0) = ['0', '0', '0'] by decide]
    exact ⟨_, rfl⟩

theorem claim_C3_amended_witness :
    ((endTimes (srtEntries "(00:00) Hello\n(00:30) World".data)).getLast? =
      some ((((30 : Nat)) : ℚ) + max 3 ((("World".data.length : Nat) : ℚ) / 10))) ∧
    (∃ p, formatSRTTime (((30 : Nat) : ℚ)) = p ++ ',' :: ['0', '0', '0']) := by
  have h := claim_C3_amended "(00:00) Hello\n(00:30) World".data (30, "World".data)
    (by decide)
  exact ⟨h.1, h.2.1 30⟩

/-! ## Claims C8 and C9: sanitization of caption text -/

theorem starClean_star_star (r : List Char) :
    starClean ('*' :: '*' :: r) = starClean r := rfl

theorem starClean_cons_ne (a b : Char) (r : List Char) (h : ¬(a = '*' ∧ b = '*')) :
    starClean (a :: b :: r) = a :: starClean (b :: r) := by
  rw [starClean.eq_def]
  split
  · rename_i heq
    injection heq with h1 h2
    injection h2 with h2 h3
    exact absurd ⟨h1, h2⟩ h
  · rename_i heq
    injection heq with h1 h2
    subst h1
    subst h2
    rfl
  · rename_i heq
    exact absurd heq (by simp)

theorem starClean_singleton (a : Char) : starClean [a] = [a] := by
  rw [starClean.eq_def]
  split
  · rename_i heq
    exact absurd heq (by simp)
  · rename_i heq
    injection heq with h1 h2
    subst h1
    subst h2
    rfl
  · rename_i heq
    exact absurd heq (by simp)

theorem starClean_subset_aux :
    ∀ (n : Nat) (cs : List Char), cs.length ≤ n → ∀ c ∈ starClean cs, c ∈ cs := by
  intro n
  induction n with
  | zero =>
    intro cs hlen c hc
    have hnil : cs = [] := List.length_eq_zero.mp (Nat.le_zero.mp hlen)
    subst hnil
    simp [starClean] at hc
  | succ n ih =>
    intro cs hlen c hc
    rcases cs with _ | ⟨a, _ | ⟨b, rest⟩⟩
    · simp [starClean] at hc
    · rwa [starClean_singleton] at hc
    · by_cases hab : a = '*' ∧ b = '*'
      · obtain ⟨rfl, rfl⟩ := hab
        rw [starClean_star_star] at hc
        have hm := ih rest (by simp only [List.length_cons] at hlen ⊢; omega) c hc
        exact List.mem_cons_of_mem _ (List.mem_cons_of_mem _ hm)
      · rw [starClean_cons_ne a b rest hab] at hc
        rcases List.mem_cons.mp hc with rfl | hmem
        · simp
        · have hm := ih (b :: rest) (by simp only [List.length_cons] at hlen ⊢; omega) c hmem
          exact List.mem_cons_of_mem _ hm

theorem starClean_subset (cs : List Char) : ∀ c ∈ starClean cs, c ∈ cs :=
  starClean_subset_aux cs.length cs le_rfl

theorem trim_contained (cs : List Char) : List.IsInfix (trim cs) cs := by
  unfold trim
  have h1 : List.IsSuffix (cs.dropWhile isWS) cs := List.dropWhile_suffix isWS
  have h2 : List.IsSuffix ((cs.dropWhile isWS).reverse.dropWhile isWS)
      (cs.dropWhile isWS).reverse := List.dropWhile_suffix isWS
  have h3 := List.reverse_prefix.mpr h2
  rw [List.reverse_reverse] at h3
  exact h3.isInfix.trans h1.isInfix

theorem trim_subset (cs : List Char) : ∀ c ∈ trim cs, c ∈ cs :=
  fun _ hc => (trim_contained cs).subset hc

theorem hasBracketPair_cons_ne (c : Char) (l : List Char) (h : c ≠ '[') :
    hasBracketPair (c :: l) = hasBracketPair l := by
  simp [hasBracketPair, List.dropWhile_cons, h]

theorem hasBracketPair_cons_lb (l : List Char) :
    hasBracketPair ('[' :: l) = l.contains ']' := by
  simp [hasBracketPair, List.dropWhile_cons]

theorem hasBracketPair_true_iff (cs : List Char) :
    hasBracketPair cs = true ↔ ∃ x y z, cs = x ++ '[' :: y ++ ']' :: z := by
  induction cs with
  | nil =>
    constructor
    · intro h
      simp [hasBracketPair] at h
    · rintro ⟨x, y, z, h⟩
      cases x <;> simp at h
  | cons c cs ih =>
    by_cases hc : c = '['
    · subst hc
      rw [hasBracketPair_cons_lb]
      constructor
      · intro h
        have hmem : ']' ∈ cs := by simpa using h
        obtain ⟨y, z, hyz⟩ := List.append_of_mem hmem
        exact ⟨[], y, z, by simp [hyz]⟩
      · rintro ⟨x, y, z, h⟩
        have hmem : ']' ∈ '[' :: cs := by
          rw [h]
          simp
        have : ']' ∈ cs := by
          rcases List.mem_cons.mp hmem with h1 | h1
          · exact absurd h1 (by decide)
          · exact h1
        simpa using this
    · rw [hasBracketPair_cons_ne c cs hc, ih]
      constructor
      · rintro ⟨x, y, z, h⟩
        exact ⟨c :: x, y, z, by simp [h]⟩
      · rintro ⟨x, y, z, h⟩
        cases x with
        | nil =>
          simp only [List.nil_append, List.cons_append] at h
          injection h with h1 h2
          exact absurd h1 hc
        | cons x0 x' =>
          simp only [List.cons_append] at h
          injection h with h1 h2
          exact ⟨x', y, z, h2⟩

theorem bracketAux_no_pair :
    ∀ cs : List Char, (∀ c ∈ cs, isLineTerm c = false) →
      (hasBracketPair (bracketAux none cs) = false ∧
       ∀ buf, ']' ∉ buf → hasBracketPair (bracketAux (some buf) cs) = false) := by
  intro cs
  induction cs with
  | nil =>
    intro _
    constructor
    · simp [bracketAux, hasBracketPair]
    · intro buf hbuf
      show hasBracketPair ('[' :: buf) = false
      rw [hasBracketPair_cons_lb]
      simpa using hbuf
  | cons c cs ih =>
    intro h
    have hc : isLineTerm c = false := h c (by simp)
    have hrest := ih (fun x hx => h x (List.mem_cons_of_mem _ hx))
    constructor
    · by_cases h1 : c = '['
      · subst h1
        show hasBracketPair (bracketAux (some []) cs) = false
        exact hrest.2 [] (by simp)
      · show hasBracketPair (bracketAux none (c :: cs)) = false
        rw [show bracketAux none (c :: cs) = c :: bracketAux none cs by
          rw [bracketAux.eq_def]
          simp [h1]]
        rw [hasBracketPair_cons_ne _ _ h1]
        exact hrest.1
    · intro buf hbuf
      by_cases h1 : c = ']'
      · subst h1
        show hasBracketPair (bracketAux none cs) = false
        exact hrest.1
      · rw [show bracketAux (some buf) (c :: cs) = bracketAux (some (buf ++ [c])) cs by
          rw [bracketAux.eq_def]
          simp [h1, hc]]
        refine hrest.2 (buf ++ [c]) ?_
        intro hmem
        rcases List.mem_append.mp hmem with h2 | h2
        · exact hbuf h2
        · simp only [List.mem_singleton] at h2
          exact h1 h2.symm

theorem hasBracketPair_false_infix {v cs : List Char} (hinf : List.IsInfix v cs)
    (h : hasBracketPair cs = false) : hasBracketPair v = false := by
  by_contra hv
  rw [Bool.not_eq_false] at hv
  obtain ⟨x, y, z, hvx⟩ := (hasBracketPair_true_iff v).mp hv
  obtain ⟨u, w, hcs⟩ := hinf
  have : hasBracketPair cs = true := by
    apply (hasBracketPair_true_iff cs).mpr
    refine ⟨u ++ x, y, z ++ w, ?_⟩
    rw [← hcs, hvx]
    simp [List.append_assoc]
  rw [this] at h
  exact absurd h (by simp)

/-- C8 counterexample.  The continuation-line sanitizer only strips
heading prefixes and `**`; a bracketed span `[Visual]` on a line after the
marker line is kept verbatim in the caption text, contradicting the claim
that `[...]` spans are removed from every line of the entry. -/
theorem claim_C8_cex :
    srtEntries "(00:00) Hi\n[Visual] Bye".data = [(0, "Hi\n[Visual] Bye".data)] ∧
    '[' ∈ ((srtEntries "(00:00) Hi\n[Visual] Bye".data).getD 0 (0, [])).2 := by
  constructor
  · decide
  · decide

/-- C8 amended.  Bracketed `[...]` spans (brackets included) are removed
from the **marker line's** caption text only: the claim's example holds,
and for any marker line without embedded line-terminator characters the
sanitized text never contains a `[` that is later followed by a `]`.
Continuation lines are not bracket-stripped (see the counterexample). -/
theorem claim_C8_amended :
    srtEntries "(00:00) **[Intro]** Hi there".data = [(0, "Hi there".data)] ∧
    ∀ pre suf : List Char, (∀ c ∈ pre ++ suf, isLineTerm c = false) →
      hasBracketPair (cleanMarkerText pre suf) = false := by
  constructor
  · decide
  · intro pre suf h
    unfold cleanMarkerText
    apply hasBracketPair_false_infix (trim_contained _)
    refine (bracketAux_no_pair _ ?_).1
    intro c hcmem
    exact h c (trim_subset _ c (starClean_subset _ c hcmem))

theorem claim_C8_amended_witness :
    (srtEntries "(00:00) **[Intro]** Hi there".data = [(0, "Hi there".data)]) ∧
    hasBracketPair (cleanMarkerText "x ".data "[cue] hi [b] z".data) = false :=
  ⟨claim_C8_amended.1, claim_C8_amended.2 "x ".data "[cue] hi [b] z".data (by decide)⟩

/-- C9 counterexample.  The heading sanitizer `replace(/#{1,6}\s/g, '')`
deletes only the hash run and one whitespace: the heading **text** stays,
so `## Section` after a marker contributes the caption line `Section`,
contradicting the claim that heading lines contribute no caption text. -/
theorem claim_C9_cex :
    srtEntries "(00:00) Hi\n## Section".data = [(0, "Hi\nSection".data)] ∧
    srtEntries "(00:00) Hi\n## Section".data ≠ [(0, "Hi".data)] := by
  constructor
  · decide
  · decide

theorem hashCleanAux_hashes (j : Nat) :
    ∀ (p : Nat) (x : List Char),
      hashCleanAux p (List.replicate j '#' ++ x) = hashCleanAux (p + j) x := by
  induction j with
  | zero => intro p x; simp
  | succ j ih =>
    intro p x
    rw [List.replicate_succ, List.cons_append]
    rw [show hashCleanAux p ('#' :: (List.replicate j '#' ++ x)) =
        hashCleanAux (p + 1) (List.replicate j '#' ++ x) by
      rw [hashCleanAux.eq_def]
      simp]
    rw [ih (p + 1) x]
    congr 1
    omega

/-- C9 amended.  A markdown heading line contributes exactly what its text
after the heading prefix contributes once sanitized — the `#{1,6}` run and
the following whitespace character are deleted, but the heading text
itself survives sanitization, so a heading contributes no caption text
only when that remaining text sanitizes to the empty string. -/
theorem claim_C9_amended :
    srtEntries "(00:00) Hi\n## Section".data = [(0, "Hi\nSection".data)] ∧
    ∀ (k : Nat) (w : Char) (rest : List Char), 1 ≤ k → k ≤ 6 → isWS w = true →
      cleanContentLine (List.replicate k '#' ++ w :: rest) = cleanContentLine rest := by
  constructor
  · decide
  · intro k w rest h1 h6 hw
    have hw' : w ≠ '#' := by
      intro hcontra
      rw [hcontra] at hw
      exact absurd hw (by decide)
    have hhash : hashClean (List.replicate k '#' ++ w :: rest) = hashClean rest := by
      unfold hashClean
      rw [hashCleanAux_hashes k 0 (w :: rest), Nat.zero_add]
      rw [hashCleanAux.eq_def]
      simp only [if_neg hw', hw, if_true]
      rw [if_neg (by omega), show k - 6 = 0 by omega]
      simp
    unfold cleanContentLine
    rw [hhash]

theorem claim_C9_amended_witness :
    (srtEntries "(00:00) Hi\n## Section".data = [(0, "Hi\nSection".data)]) ∧
    cleanContentLine (List.replicate 2 '#' ++ ' ' :: "Section".data) =
      cleanContentLine "Section".data :=
  ⟨claim_C9_amended.1,
   claim_C9_amended.2 2 ' ' "Section".data (by norm_num) (by norm_num) (by decide)⟩
